import Mathlib

/-!
Verification development for the solace repository.

Shallow embedding of `src/compression/scratch.py` (token-importance scoring,
selection, reconstruction, chunking) and of `verify_answer` from
`src/compression/longbench.py`.

Modelling conventions:
* Real-valued scores are embedded as rationals (`ℚ`); numpy float arithmetic
  is modelled exactly (the `1e-8` stabiliser in `normalize` is the rational
  `1/10^8`, `int(n * 0.1)` on a nonnegative value is the rational floor).
* The neural components (the encoder forward pass producing attention and
  hidden states, the sentence-embedding model) are external models; their
  per-token outputs are taken as inputs of the embedding (`TokenInputs`),
  exactly as `score_tokens` consumes them after `_get_attention_scores`,
  `_get_semantic_scores` and `_get_query_scores`.
* The external reference tokenizer used only for metric counts
  (`count_tokens`, tiktoken) is an abstract parameter `tokCount`.
* Python `enumerate`, truthiness (`target_ratio or ...`, `if query and ...`)
  and negative indexing (`sorted_scores[keep_count - 1]`) are modelled by
  `pyEnumFrom`, `pyOr` / `queryActive` and `pyGet`.
-/

namespace Solace

/-- Rational model of the float literal `1e-8` added to the normalising
denominator in `TokenImportanceScorer.score_tokens.normalize`. -/
def eps : ℚ := 1 / 100000000

/-- Maximum of a list of rationals (`np.max` on a nonempty array; `0` on the
empty array, which the source never produces). -/
def listMax : List ℚ → ℚ
  | [] => 0
  | a :: t => t.foldl max a

/-- Minimum of a list of rationals (`np.min` on a nonempty array). -/
def listMin : List ℚ → ℚ
  | [] => 0
  | a :: t => t.foldl min a

/-- Min-max normalisation from `score_tokens` (scratch.py lines 293-296):
constant arrays map to all ones, otherwise `(x - min) / (max - min + 1e-8)`. -/
def normalize (x : List ℚ) : List ℚ :=
  if listMax x = listMin x then x.map (fun _ => 1)
  else x.map (fun v => (v - listMin x) / (listMax x - listMin x + eps))

/-- Configuration record (scratch.py `CompressorConfig`), restricted to the
fields read by the embedded code paths.  Model identifiers and the
layer-weighting scheme only parameterise the external neural components. -/
structure CompressorConfig where
  use_query_aware : Bool
  attention_weight : ℚ
  semantic_weight : ℚ
  query_weight : ℚ
  target_ratio : ℚ
  min_tokens : ℕ
  hard_threshold : ℚ
  chunk_size : ℕ
  use_position_bias : Bool
  position_boost_start : ℚ
  position_boost_end : ℚ
deriving DecidableEq

/-- The dataclass defaults of `CompressorConfig`. -/
def defaultConfig : CompressorConfig where
  use_query_aware := true
  attention_weight := 2 / 5
  semantic_weight := 3 / 10
  query_weight := 3 / 10
  target_ratio := 17 / 50
  min_tokens := 50
  hard_threshold := 0
  chunk_size := 450
  use_position_bias := true
  position_boost_start := 6 / 5
  position_boost_end := 11 / 10

/-- Per-call data consumed by `score_tokens`: the tokenizer output (`tokens`,
`token_ids`, the tokenizer's `all_special_ids`) and the raw per-token signal
arrays produced by the external neural models. -/
structure TokenInputs where
  attn_scores : List ℚ
  sem_scores : List ℚ
  query_scores : List ℚ
  tokens : List String
  token_ids : List ℤ
  special_ids : List ℤ
deriving DecidableEq

/-- Python truthiness of `query` combined with the flag, from
`if query and self.config.use_query_aware:` (scratch.py line 302):
`None` and the empty string are falsy. -/
def queryActive (cfg : CompressorConfig) (query : Option String) : Bool :=
  match query with
  | none => false
  | some q => (q != "") && cfg.use_query_aware

/-- Indexed map used to embed numpy elementwise updates. -/
def mapIdxGo (f : ℕ → ℚ → ℚ) : ℕ → List ℚ → List ℚ
  | _, [] => []
  | i, a :: t => f i a :: mapIdxGo f (i + 1) t

/-- `TokenImportanceScorer._apply_position_bias` (scratch.py lines 236-258):
no-op below 10 tokens; otherwise the first `int(n * 0.1)` positions are
multiplied by the start boost and the positions from `int(n * 0.9)` on by the
end boost (slice assignment into a weight vector of ones, then an
elementwise product). -/
def apply_position_bias (cfg : CompressorConfig) (scores : List ℚ) : List ℚ :=
  let n := scores.length
  if n < 10 then scores
  else
    mapIdxGo (fun i s =>
      if i < n / 10 then s * cfg.position_boost_start
      else if 9 * n / 10 ≤ i then s * cfg.position_boost_end
      else s) 0 scores

/-- Python `re.search(r'[a-zA-Z0-9]', tok)` (scratch.py line 328). -/
def hasAlnum (tok : String) : Bool :=
  tok.data.any (fun c => c.isAlpha || c.isDigit)

/-- Python `tok.startswith("##")` (scratch.py line 330). -/
def startsWithHashHash (tok : String) : Bool :=
  match tok.data with
  | '#' :: '#' :: _ => true
  | _ => false

/-- The loop of scratch.py lines 324-331: special tokens are zeroed,
tokens without alphanumerics are halved, subword continuations are scaled by
0.8.  The loop runs over `zip(tokens, token_ids)`, so score positions past
either list are untouched. -/
def penalizeTokens (inp : TokenInputs) (scores : List ℚ) : List ℚ :=
  mapIdxGo (fun i s =>
    match inp.tokens.get? i, inp.token_ids.get? i with
    | some tok, some tid =>
      if tid ∈ inp.special_ids then 0
      else if !(hasAlnum tok) then s * (1 / 2)
      else if startsWithHashHash tok then s * (4 / 5)
      else s
    | _, _ => s) 0 scores

/-- Three-way elementwise combination (numpy weighted sum of three equal
length arrays). -/
def zipWith3Q (f : ℚ → ℚ → ℚ → ℚ) : List ℚ → List ℚ → List ℚ → List ℚ
  | a :: as, b :: bs, c :: cs => f a b c :: zipWith3Q f as bs cs
  | _, _, _ => []

/-- `TokenImportanceScorer.score_tokens` (scratch.py lines 260-333) from the
point where the raw signal arrays exist: normalise each signal, fuse with the
configured weights (renormalised over attention and semantic when no query is
active), apply position bias, apply token penalties, and normalise again. -/
def score_tokens (cfg : CompressorConfig) (inp : TokenInputs)
    (query : Option String) : List ℚ :=
  let attn := normalize inp.attn_scores
  let sem := normalize inp.sem_scores
  let fused :=
    if queryActive cfg query then
      zipWith3Q (fun a s q =>
          cfg.attention_weight * a + cfg.semantic_weight * s +
            cfg.query_weight * q)
        attn sem (normalize inp.query_scores)
    else
      List.zipWith (fun a s =>
          cfg.attention_weight / (cfg.attention_weight + cfg.semantic_weight) * a +
            cfg.semantic_weight / (cfg.attention_weight + cfg.semantic_weight) * s)
        attn sem
  let biased := if cfg.use_position_bias then apply_position_bias cfg fused else fused
  normalize (penalizeTokens inp biased)

/-- Python `target_ratio or self.config.target_ratio` (scratch.py line 372):
`None` and `0.0` are falsy, so both select the configured ratio. -/
def pyOr (o : Option ℚ) (d : ℚ) : ℚ :=
  match o with
  | none => d
  | some x => if x = 0 then d else x

/-- `np.sort(scores)[::-1]` (scratch.py line 388): sort ascending, reverse. -/
def sortDesc (l : List ℚ) : List ℚ :=
  (l.insertionSort (· ≤ ·)).reverse

/-- Python list indexing with a possibly negative index, used for
`sorted_scores[keep_count - 1]` (scratch.py line 389). -/
def pyGet (l : List ℚ) (i : ℤ) : ℚ :=
  if 0 ≤ i then l.getD i.toNat 0 else l.getD (l.length - (-i).toNat) 0

/-- `keep_count` (scratch.py lines 379-382): `max(min_tokens, int(n * target))`
(`int` truncation equals the floor on the nonnegative products the compressor
produces). -/
def keepCount (minTokens : ℕ) (n : ℕ) (target : ℚ) : ℕ :=
  max minTokens (((n : ℚ) * target).floor.toNat)

/-- Threshold selection (scratch.py lines 384-389). -/
def keepThreshold (hard : ℚ) (scores : List ℚ) (origTokens keepCnt : ℕ) : ℚ :=
  if origTokens ≤ keepCnt then 0
  else max (pyGet (sortDesc scores) ((keepCnt : ℤ) - 1)) hard

/-- Python `enumerate`, starting at a given index. -/
def pyEnumFrom : ℕ → List ℚ → List (ℕ × ℚ)
  | _, [] => []
  | i, a :: t => (i, a) :: pyEnumFrom (i + 1) t

/-- Characters of the tokens joined by single spaces. -/
def joinSpaceData : List String → List Char
  | [] => []
  | [s] => s.data
  | s :: rest => s.data ++ ' ' :: joinSpaceData rest

/-- Left-to-right removal of every occurrence of the three characters
of the string made of a space and two hashes (Python `replace` with an
empty replacement). -/
def removeSpaceHashHash : List Char → List Char
  | ' ' :: '#' :: '#' :: rest => removeSpaceHashHash rest
  | c :: rest => c :: removeSpaceHashHash rest
  | [] => []

/-- Python `str.strip()`: drop leading and trailing whitespace. -/
def pyStrip (l : List Char) : List Char :=
  ((l.dropWhile Char.isWhitespace).reverse.dropWhile Char.isWhitespace).reverse

/-- Modelled from the spec: the encoder detokenisation convention of section
4.7 (merge `##` subword continuations without a space, single spaces between
independent tokens) standing in for the external
`tokenizer.convert_tokens_to_string` of the transformers library, which is
not part of this repository.  It is the documented WordPiece convention:
join with spaces, delete the space before each `##` marker pair, strip. -/
def convert_tokens_to_string (toks : List String) : String :=
  String.mk (pyStrip (removeSpaceHashHash (joinSpaceData toks)))

/-- Whitespace-run collapsing from `re.sub(r'\s+', ' ', compressed)`
(scratch.py line 399). -/
def collapseWsAux : Bool → List Char → List Char
  | _, [] => []
  | inRun, c :: rest =>
    if c.isWhitespace then
      if inRun then collapseWsAux true rest
      else ' ' :: collapseWsAux true rest
    else c :: collapseWsAux false rest

/-- `re.sub(r'\s+', ' ', compressed).strip()` (scratch.py line 399). -/
def cleanupWs (s : String) : String :=
  String.mk (pyStrip (collapseWsAux false s.data))

/-- Result record (scratch.py `CompressionResult`). -/
structure CompressionResult where
  original_text : String
  compressed_text : String
  original_tokens : ℕ
  compressed_tokens : ℕ
  token_scores : List ℚ
  kept_indices : List ℕ
  compression_ratio : ℚ
deriving DecidableEq

/-- Body of `ScratchCompressor.compress` (scratch.py lines 374-413) after the
target ratio has been resolved. -/
def compressWithTarget (cfg : CompressorConfig) (tokCount : String → ℕ)
    (inp : TokenInputs) (text : String) (query : Option String)
    (target : ℚ) : CompressionResult :=
  let scores := score_tokens cfg inp query
  let orig_tokens := inp.tokens.length
  let keep_count := keepCount cfg.min_tokens orig_tokens target
  let threshold := keepThreshold cfg.hard_threshold scores orig_tokens keep_count
  let kept_indices :=
    ((pyEnumFrom 0 scores).filter (fun p => threshold ≤ p.2)).map Prod.fst
  let kept_tokens := kept_indices.map (fun i => inp.tokens.getD i "")
  let compressed := cleanupWs (convert_tokens_to_string kept_tokens)
  let comp_tokens := tokCount compressed
  let orig_count := tokCount text
  { original_text := text
    compressed_text := compressed
    original_tokens := orig_count
    compressed_tokens := comp_tokens
    token_scores := scores
    kept_indices := kept_indices
    compression_ratio :=
      if 0 < orig_count then (comp_tokens : ℚ) / (orig_count : ℚ) else 1 }

/-- `ScratchCompressor.compress` (scratch.py lines 355-413). -/
def compress (cfg : CompressorConfig) (tokCount : String → ℕ)
    (inp : TokenInputs) (text : String) (query : Option String)
    (target_ratio : Option ℚ) : CompressionResult :=
  compressWithTarget cfg tokCount inp text query (pyOr target_ratio cfg.target_ratio)

/-- Word counter: the flag records whether the previous character was inside
a word. -/
def countWordsAux : Bool → List Char → ℕ
  | _, [] => 0
  | inWord, c :: rest =>
    if c.isWhitespace then countWordsAux false rest
    else if inWord then countWordsAux true rest
    else 1 + countWordsAux true rest

/-- Python `len(sent.split())`: number of maximal whitespace-free runs. -/
def pyWordCount (s : String) : ℕ :=
  countWordsAux false s.data

/-- One of `.`, `!`, `?`. -/
def isTerminalPunct (c : Char) : Bool :=
  c = '.' || c = '!' || c = '?'

/-- Head of the reversed accumulator is terminal punctuation. -/
def headIsTerminal : List Char → Bool
  | [] => false
  | t :: _ => isTerminalPunct t

/-- State machine for `re.split(r'(?<=[.!?])\s+', text)`: a sentence ends at
a whitespace run immediately preceded by terminal punctuation; the run is the
discarded delimiter.  `none` is the delimiter-skipping state, `some acc`
holds the current sentence reversed. -/
def splitSentencesAux : Option (List Char) → List Char → List (List Char)
  | some acc, [] => [acc.reverse]
  | none, [] => [[]]
  | some acc, c :: rest =>
    if c.isWhitespace && headIsTerminal acc then
      acc.reverse :: splitSentencesAux none rest
    else
      splitSentencesAux (some (c :: acc)) rest
  | none, c :: rest =>
    if c.isWhitespace then splitSentencesAux none rest
    else splitSentencesAux (some [c]) rest

/-- Sentence splitting used by `_get_query_scores` and `compress_chunks`
(scratch.py lines 192 and 430). -/
def split_sentences (s : String) : List String :=
  (splitSentencesAux (some []) s.data).map String.mk

/-- The greedy sentence-packing loop of `compress_chunks` (scratch.py lines
432-448), returning each chunk as its sentence group (the source joins each
group with single spaces as it is flushed). -/
def chunkGo (chunkSize : ℕ) (chunks : List (List String))
    (current : List String) (currentLen : ℕ) :
    List String → List (List String)
  | [] => if current = [] then chunks else chunks ++ [current]
  | sent :: rest =>
    if ((currentLen + pyWordCount sent : ℕ) : ℚ) > (chunkSize : ℚ) * (8 / 10) then
      chunkGo chunkSize (if current = [] then chunks else chunks ++ [current])
        [sent] (pyWordCount sent) rest
    else
      chunkGo chunkSize chunks (current ++ [sent])
        (currentLen + pyWordCount sent) rest

/-- The sentence groups `compress_chunks` builds for a text. -/
def chunkGroups (cfg : CompressorConfig) (text : String) : List (List String) :=
  chunkGo cfg.chunk_size [] [] 0 (split_sentences text)

/-- `ScratchCompressor.compress_chunks` (scratch.py lines 415-472): compress
each chunk independently, join the compressed texts with single spaces, sum
the token counts.  `scorer` supplies the per-chunk neural outputs. -/
def compress_chunks (cfg : CompressorConfig) (tokCount : String → ℕ)
    (scorer : String → TokenInputs) (text : String) (query : Option String)
    (target_ratio : Option ℚ) : CompressionResult :=
  let chunks := (chunkGroups cfg text).map (String.intercalate " ")
  let results := chunks.map (fun ch => compress cfg tokCount (scorer ch) ch query target_ratio)
  let total_orig := (results.map CompressionResult.original_tokens).sum
  let total_comp := (results.map CompressionResult.compressed_tokens).sum
  { original_text := text
    compressed_text := String.intercalate " " (results.map CompressionResult.compressed_text)
    original_tokens := total_orig
    compressed_tokens := total_comp
    token_scores := []
    kept_indices := []
    compression_ratio :=
      if 0 < total_orig then (total_comp : ℚ) / (total_orig : ℚ) else 1 }

end Solace

namespace Solace

/-! ## Basic lemmas about the helper functions -/

theorem le_foldl_max (t : List ℚ) (a : ℚ) : a ≤ t.foldl max a := by
  induction t generalizing a with
  | nil => exact le_refl a
  | cons b t ih => exact le_trans (le_max_left a b) (ih (max a b))

theorem le_foldl_max_of_mem {x : ℚ} {t : List ℚ} (a : ℚ) (hx : x ∈ t) :
    x ≤ t.foldl max a := by
  induction t generalizing a with
  | nil => cases hx
  | cons b t ih =>
    rcases List.mem_cons.mp hx with rfl | h
    · exact le_trans (le_max_right a x) (le_foldl_max t (max a x))
    · exact ih (max a b) h

theorem le_listMax {x : ℚ} {l : List ℚ} (hx : x ∈ l) : x ≤ listMax l := by
  cases l with
  | nil => cases hx
  | cons a t =>
    rcases List.mem_cons.mp hx with rfl | h
    · exact le_foldl_max t x
    · exact le_foldl_max_of_mem a h

theorem foldl_min_le (t : List ℚ) (a : ℚ) : t.foldl min a ≤ a := by
  induction t generalizing a with
  | nil => exact le_refl a
  | cons b t ih => exact le_trans (ih (min a b)) (min_le_left a b)

theorem foldl_min_le_of_mem {x : ℚ} {t : List ℚ} (a : ℚ) (hx : x ∈ t) :
    t.foldl min a ≤ x := by
  induction t generalizing a with
  | nil => cases hx
  | cons b t ih =>
    rcases List.mem_cons.mp hx with rfl | h
    · exact le_trans (foldl_min_le t (min a x)) (min_le_right a x)
    · exact ih (min a b) h

theorem listMin_le {x : ℚ} {l : List ℚ} (hx : x ∈ l) : listMin l ≤ x := by
  cases l with
  | nil => cases hx
  | cons a t =>
    rcases List.mem_cons.mp hx with rfl | h
    · exact foldl_min_le t x
    · exact foldl_min_le_of_mem a h

theorem foldl_max_const {c : ℚ} : ∀ (t : List ℚ) (a : ℚ),
    (∀ x ∈ t, x = c) → a = c → t.foldl max a = c := by
  intro t
  induction t with
  | nil => intro a _ ha; exact ha
  | cons b t ih =>
    intro a h ha
    have hb : b = c := h b (List.mem_cons_self b t)
    have : max a b = c := by rw [ha, hb, max_self]
    exact ih (max a b) (fun x hx => h x (List.mem_cons_of_mem b hx)) this

theorem foldl_min_const {c : ℚ} : ∀ (t : List ℚ) (a : ℚ),
    (∀ x ∈ t, x = c) → a = c → t.foldl min a = c := by
  intro t
  induction t with
  | nil => intro a _ ha; exact ha
  | cons b t ih =>
    intro a h ha
    have hb : b = c := h b (List.mem_cons_self b t)
    have : min a b = c := by rw [ha, hb, min_self]
    exact ih (min a b) (fun x hx => h x (List.mem_cons_of_mem b hx)) this

theorem listMax_eq_listMin_of_const {l : List ℚ} {c : ℚ}
    (h : ∀ x ∈ l, x = c) : listMax l = listMin l := by
  cases l with
  | nil => rfl
  | cons a t =>
    have ha : a = c := h a (List.mem_cons_self a t)
    have ht : ∀ x ∈ t, x = c := fun x hx => h x (List.mem_cons_of_mem a hx)
    show t.foldl max a = t.foldl min a
    rw [foldl_max_const t a ht ha, foldl_min_const t a ht ha]

theorem eps_pos : (0 : ℚ) < eps := by norm_num [eps]

theorem normalize_mem_bounds {l : List ℚ} {x : ℚ} (hx : x ∈ normalize l) :
    0 ≤ x ∧ x ≤ 1 := by
  unfold normalize at hx
  by_cases h : listMax l = listMin l
  · rw [if_pos h] at hx
    rcases List.mem_map.mp hx with ⟨v, _, rfl⟩
    exact ⟨zero_le_one, le_refl 1⟩
  · rw [if_neg h] at hx
    rcases List.mem_map.mp hx with ⟨v, hv, rfl⟩
    have hmin : listMin l ≤ v := listMin_le hv
    have hmax : v ≤ listMax l := le_listMax hv
    have he : (0 : ℚ) < eps := eps_pos
    have hd : 0 < listMax l - listMin l + eps := by linarith
    constructor
    · exact div_nonneg (by linarith) (le_of_lt hd)
    · rw [div_le_one hd]; linarith

theorem normalize_const {l : List ℚ} {c : ℚ} (h : ∀ x ∈ l, x = c) :
    normalize l = List.replicate l.length 1 := by
  unfold normalize
  rw [if_pos (listMax_eq_listMin_of_const h)]
  exact List.map_const' l 1

theorem normalize_length (l : List ℚ) : (normalize l).length = l.length := by
  unfold normalize
  by_cases h : listMax l = listMin l
  · rw [if_pos h, List.length_map]
  · rw [if_neg h, List.length_map]

theorem mapIdxGo_length (f : ℕ → ℚ → ℚ) : ∀ (k : ℕ) (l : List ℚ),
    (mapIdxGo f k l).length = l.length := by
  intro k l
  induction l generalizing k with
  | nil => rfl
  | cons a t ih => simp [mapIdxGo, ih]

theorem mapIdxGo_getD (f : ℕ → ℚ → ℚ) :
    ∀ (k : ℕ) (l : List ℚ) (i : ℕ), i < l.length →
      (mapIdxGo f k l).getD i 0 = f (k + i) (l.getD i 0) := by
  intro k l
  induction l generalizing k with
  | nil => intro i hi; cases hi
  | cons a t ih =>
    intro i hi
    cases i with
    | zero => simp [mapIdxGo]
    | succ i =>
      have hi' : i < t.length := by simpa using hi
      simp only [mapIdxGo, List.getD_cons_succ]
      rw [ih (k + 1) i hi']
      congr 1
      omega

theorem pyEnumFrom_map_fst : ∀ (k : ℕ) (l : List ℚ),
    (pyEnumFrom k l).map Prod.fst = List.range' k l.length := by
  intro k l
  induction l generalizing k with
  | nil => rfl
  | cons a t ih =>
    show k :: (pyEnumFrom (k + 1) t).map Prod.fst = List.range' k (t.length + 1)
    rw [ih (k + 1), List.range'_succ]

theorem mem_pyEnumFrom_iff : ∀ (l : List ℚ) (k : ℕ) (p : ℕ × ℚ),
    p ∈ pyEnumFrom k l ↔ ∃ j, j < l.length ∧ p.1 = k + j ∧ l.getD j 0 = p.2 := by
  intro l
  induction l with
  | nil => intro k p; simp [pyEnumFrom]
  | cons a t ih =>
    intro k p
    constructor
    · intro hp
      rcases List.mem_cons.mp hp with rfl | h
      · exact ⟨0, by simp⟩
      · rcases (ih (k + 1) p).mp h with ⟨j, hj, hpj, hv⟩
        exact ⟨j + 1, by simpa using hj, by omega, by simpa using hv⟩
    · rintro ⟨j, hj, hpj, hv⟩
      cases j with
      | zero =>
        have : p = (k, a) := by
          rcases p with ⟨p1, p2⟩
          simp only [List.getD_cons_zero] at hv
          simp only at hpj
          simp [hpj, ← hv]
        rw [this]; exact List.mem_cons_self _ _
      | succ j =>
        apply List.mem_cons_of_mem
        apply (ih (k + 1) p).mpr
        exact ⟨j, by simpa using hj, by omega, by simpa using hv⟩

theorem pyEnumFrom_pairwise_fst : ∀ (k : ℕ) (l : List ℚ),
    (pyEnumFrom k l).Pairwise (fun a b => a.1 < b.1) := by
  intro k l
  induction l generalizing k with
  | nil => exact List.Pairwise.nil
  | cons a t ih =>
    refine List.Pairwise.cons ?_ (ih (k + 1))
    intro p hp
    rcases (mem_pyEnumFrom_iff t (k + 1) p).mp hp with ⟨j, _, hpj, _⟩
    show k < p.1
    omega

theorem keptOf_length (q : ℚ → Bool) : ∀ (l : List ℚ) (k : ℕ),
    (((pyEnumFrom k l).filter (fun p => q p.2)).map Prod.fst).length =
      l.countP q := by
  intro l
  induction l with
  | nil => intro k; rfl
  | cons a t ih =>
    intro k
    simp only [pyEnumFrom, List.filter_cons, List.countP_cons]
    by_cases h : q a
    · rw [if_pos (by simpa using h), if_pos (by simpa using h)]
      simp only [List.map_cons, List.length_cons]
      rw [ih (k + 1)]
    · rw [if_neg (by simpa using h), if_neg (by simpa using h)]
      rw [ih (k + 1)]
      omega

end Solace

namespace Solace

/-! ## Sorted-selection lemmas -/

theorem sortDesc_perm (l : List ℚ) : (sortDesc l).Perm l := by
  unfold sortDesc
  exact (List.reverse_perm _).trans (List.perm_insertionSort _ l)

theorem sortDesc_length (l : List ℚ) : (sortDesc l).length = l.length :=
  (sortDesc_perm l).length_eq

theorem sortDesc_anti (l : List ℚ) (i j : ℕ) (hij : i ≤ j)
    (hj : j < (sortDesc l).length) :
    (sortDesc l).getD j 0 ≤ (sortDesc l).getD i 0 := by
  have hi : i < (sortDesc l).length := lt_of_le_of_lt hij hj
  rw [List.getD_eq_getElem _ _ hj, List.getD_eq_getElem _ _ hi]
  unfold sortDesc at *
  have hsorted : (l.insertionSort (· ≤ ·)).Sorted (· ≤ ·) :=
    List.sorted_insertionSort _ l
  rw [List.getElem_reverse, List.getElem_reverse]
  have hlen' : ((l.insertionSort (· ≤ ·)).reverse).length =
      (l.insertionSort (· ≤ ·)).length := List.length_reverse _
  have hjlt : (l.insertionSort (· ≤ ·)).length - 1 - j <
      (l.insertionSort (· ≤ ·)).length := by omega
  have hilt : (l.insertionSort (· ≤ ·)).length - 1 - i <
      (l.insertionSort (· ≤ ·)).length := by omega
  exact hsorted.rel_get_of_le
    (a := ⟨_, hjlt⟩) (b := ⟨_, hilt⟩) (by simp [Fin.le_def]; omega)

theorem kth_mem (l : List ℚ) (k : ℕ) (hk : 0 < k) (hkl : k ≤ l.length) :
    (sortDesc l).getD (k - 1) 0 ∈ l := by
  have hlt : k - 1 < (sortDesc l).length := by rw [sortDesc_length]; omega
  rw [List.getD_eq_getElem _ _ hlt]
  exact (sortDesc_perm l).mem_iff.mp (List.getElem_mem hlt)

theorem kth_count_ge (l : List ℚ) (k : ℕ) (hk : 0 < k) (hkl : k ≤ l.length) :
    k ≤ l.countP (fun s => (sortDesc l).getD (k - 1) 0 ≤ s) := by
  have hperm := sortDesc_perm l
  rw [← hperm.countP_eq]
  have hdlen : (sortDesc l).length = l.length := sortDesc_length l
  have hsplit := List.take_append_drop k (sortDesc l)
  have htlen : ((sortDesc l).take k).length = k := by
    rw [List.length_take]; omega
  have hall : ∀ x ∈ (sortDesc l).take k,
      (fun s => decide ((sortDesc l).getD (k - 1) 0 ≤ s)) x = true := by
    intro x hx
    rcases List.mem_iff_getElem.mp hx with ⟨i, hilt, hix⟩
    have hik : i < k := by rw [htlen] at hilt; exact hilt
    have hikl : i < (sortDesc l).length := by omega
    have hx' : x = (sortDesc l).getD i 0 := by
      rw [List.getD_eq_getElem _ _ hikl, ← List.getElem_take (sortDesc l)]
      · exact hix.symm
    have hle := sortDesc_anti l i (k - 1) (by omega) (by omega)
    simp only [decide_eq_true_eq]
    rw [hx']
    exact hle
  have htake : ((sortDesc l).take k).countP
      (fun s => (sortDesc l).getD (k - 1) 0 ≤ s) = k := by
    rw [List.countP_eq_length.mpr hall, htlen]
  calc k = ((sortDesc l).take k).countP
        (fun s => (sortDesc l).getD (k - 1) 0 ≤ s) := htake.symm
    _ ≤ ((sortDesc l).take k).countP (fun s => (sortDesc l).getD (k - 1) 0 ≤ s) +
        ((sortDesc l).drop k).countP (fun s => (sortDesc l).getD (k - 1) 0 ≤ s) :=
          Nat.le_add_right _ _
    _ = (sortDesc l).countP (fun s => (sortDesc l).getD (k - 1) 0 ≤ s) := by
          rw [← List.countP_append, hsplit]

theorem kth_count_lt (l : List ℚ) (k : ℕ) (hk : 0 < k) (hkl : k ≤ l.length) :
    l.countP (fun s => (sortDesc l).getD (k - 1) 0 < s) < k := by
  have hperm := sortDesc_perm l
  rw [← hperm.countP_eq]
  have hdlen : (sortDesc l).length = l.length := sortDesc_length l
  have hsplit := List.take_append_drop (k - 1) (sortDesc l)
  have hdropz : ((sortDesc l).drop (k - 1)).countP
      (fun s => (sortDesc l).getD (k - 1) 0 < s) = 0 := by
    rw [List.countP_eq_zero]
    intro x hx
    rcases List.mem_iff_getElem.mp hx with ⟨i, hilt, hix⟩
    have hilen : (k - 1) + i < (sortDesc l).length := by
      have := hilt
      rw [List.length_drop] at this
      omega
    have hx' : x = (sortDesc l).getD ((k - 1) + i) 0 := by
      rw [List.getD_eq_getElem _ _ hilen, ← List.getElem_drop (sortDesc l)]
      exact hix.symm
    have hle := sortDesc_anti l (k - 1) ((k - 1) + i) (by omega) (by omega)
    simp only [decide_eq_true_eq, not_lt]
    rw [hx']
    exact hle
  have htklen : ((sortDesc l).take (k - 1)).countP
      (fun s => (sortDesc l).getD (k - 1) 0 < s) ≤ k - 1 := by
    calc ((sortDesc l).take (k - 1)).countP
          (fun s => (sortDesc l).getD (k - 1) 0 < s)
        ≤ ((sortDesc l).take (k - 1)).length := List.countP_le_length _
      _ ≤ k - 1 := by rw [List.length_take]; omega
  calc (sortDesc l).countP (fun s => (sortDesc l).getD (k - 1) 0 < s)
      = ((sortDesc l).take (k - 1)).countP
          (fun s => (sortDesc l).getD (k - 1) 0 < s) +
        ((sortDesc l).drop (k - 1)).countP
          (fun s => (sortDesc l).getD (k - 1) 0 < s) := by
        rw [← List.countP_append, hsplit]
    _ = ((sortDesc l).take (k - 1)).countP
          (fun s => (sortDesc l).getD (k - 1) 0 < s) := by rw [hdropz]; omega
    _ ≤ k - 1 := htklen
    _ < k := by omega

end Solace

namespace Solace

/-! ## Kept-index and score lemmas -/

theorem compress_kept_indices (cfg : CompressorConfig) (tokCount : String → ℕ)
    (inp : TokenInputs) (text : String) (query : Option String) (tr : Option ℚ) :
    (compress cfg tokCount inp text query tr).kept_indices =
      ((pyEnumFrom 0 (score_tokens cfg inp query)).filter
        (fun p => keepThreshold cfg.hard_threshold (score_tokens cfg inp query)
            inp.tokens.length
            (keepCount cfg.min_tokens inp.tokens.length (pyOr tr cfg.target_ratio)) ≤ p.2)).map
        Prod.fst := rfl

theorem compress_token_scores (cfg : CompressorConfig) (tokCount : String → ℕ)
    (inp : TokenInputs) (text : String) (query : Option String) (tr : Option ℚ) :
    (compress cfg tokCount inp text query tr).token_scores =
      score_tokens cfg inp query := rfl

theorem mem_keptOf_iff (q : ℚ → Bool) (l : List ℚ) (i : ℕ) :
    i ∈ ((pyEnumFrom 0 l).filter (fun p => q p.2)).map Prod.fst ↔
      i < l.length ∧ q (l.getD i 0) := by
  simp only [List.mem_map, List.mem_filter]
  constructor
  · rintro ⟨p, ⟨hp, hq⟩, rfl⟩
    rcases (mem_pyEnumFrom_iff l 0 p).mp hp with ⟨j, hj, hpj, hv⟩
    have hj' : p.1 = j := by omega
    constructor
    · omega
    · rw [hj', hv]
      exact hq
  · rintro ⟨hi, hq⟩
    refine ⟨(i, l.getD i 0), ⟨(mem_pyEnumFrom_iff l 0 _).mpr ⟨i, hi, by omega, rfl⟩, hq⟩, rfl⟩

theorem keptOf_pairwise (q : ℚ → Bool) (l : List ℚ) (k : ℕ) :
    (((pyEnumFrom k l).filter (fun p => q p.2)).map Prod.fst).Pairwise (· < ·) :=
  List.Pairwise.map Prod.fst (fun _ _ h => h)
    ((pyEnumFrom_pairwise_fst k l).filter _)

theorem keptOf_all (q : ℚ → Bool) (l : List ℚ) (h : ∀ x ∈ l, q x) :
    ((pyEnumFrom 0 l).filter (fun p => q p.2)).map Prod.fst =
      List.range l.length := by
  have hfil : (pyEnumFrom 0 l).filter (fun p => q p.2) = pyEnumFrom 0 l := by
    rw [List.filter_eq_self]
    intro p hp
    rcases (mem_pyEnumFrom_iff l 0 p).mp hp with ⟨j, hj, _, hv⟩
    have hmem : l.getD j 0 ∈ l := by
      rw [List.getD_eq_getElem _ _ hj]; exact List.getElem_mem hj
    rw [← hv]
    exact h _ hmem
  rw [hfil, pyEnumFrom_map_fst, ← List.range_eq_range']

theorem score_tokens_bounds (cfg : CompressorConfig) (inp : TokenInputs)
    (query : Option String) :
    ∀ x ∈ score_tokens cfg inp query, 0 ≤ x ∧ x ≤ 1 := by
  intro x hx
  exact normalize_mem_bounds (by simpa [score_tokens] using hx)

end Solace

namespace Solace

/-! ## Claim theorems -/

/-- Claim C2: for every input text and query, the kept_indices list returned
by compress is strictly increasing (tokens are never reordered by score), so
reconstructed text preserves original token order. -/
theorem compress_kept_indices_strictly_increasing (cfg : CompressorConfig)
    (tokCount : String → ℕ) (inp : TokenInputs) (text : String)
    (query : Option String) (tr : Option ℚ) :
    (compress cfg tokCount inp text query tr).kept_indices.Pairwise (· < ·) := by
  rw [compress_kept_indices]
  exact keptOf_pairwise
    (fun x => decide (keepThreshold cfg.hard_threshold (score_tokens cfg inp query)
      inp.tokens.length
      (keepCount cfg.min_tokens inp.tokens.length (pyOr tr cfg.target_ratio)) ≤ x))
    (score_tokens cfg inp query) 0

/-- Claim C5: every per-token fused score produced by score_tokens lies in
the closed interval from 0 to 1, for every input and query, including after
the position-bias boosts and the token penalties (the final min-max
normalisation runs after both); a constant-valued score array normalises to
all ones. -/
theorem score_tokens_unit_interval (cfg : CompressorConfig) (inp : TokenInputs)
    (query : Option String) :
    (∀ x ∈ score_tokens cfg inp query, 0 ≤ x ∧ x ≤ 1) ∧
    (∀ (l : List ℚ) (c : ℚ), (∀ x ∈ l, x = c) →
      normalize l = List.replicate l.length 1) :=
  ⟨score_tokens_bounds cfg inp query, fun _ _ h => normalize_const h⟩

/-- Concrete neural outputs with constant signal arrays, used by witnesses. -/
def inpConst : TokenInputs where
  attn_scores := [5, 5]
  sem_scores := [7, 7]
  query_scores := []
  tokens := ["a", "b"]
  token_ids := [1, 2]
  special_ids := []

theorem score_tokens_inpConst_eval :
    score_tokens defaultConfig inpConst none = [1, 1] := by
  have ha : hasAlnum "a" = true := by decide
  have hb : hasAlnum "b" = true := by decide
  have hsa : startsWithHashHash "a" = false := by decide
  have hsb : startsWithHashHash "b" = false := by decide
  norm_num [score_tokens, normalize, listMax, listMin, queryActive,
    apply_position_bias, penalizeTokens, mapIdxGo, inpConst,
    defaultConfig, max_def, min_def, ha, hb, hsa, hsb]

theorem score_tokens_unit_interval_witness :
    ((0 : ℚ) ≤ 1 ∧ (1 : ℚ) ≤ 1) ∧
      normalize [2, 2] = List.replicate 2 1 :=
  ⟨(score_tokens_unit_interval defaultConfig inpConst none).1 1
      (score_tokens_inpConst_eval ▸ List.mem_cons_self 1 [1]),
   (score_tokens_unit_interval defaultConfig inpConst none).2 [2, 2] 2
      (by simp)⟩

/-- Claim C6: for every score array of length at least 10, the position-bias
corrector multiplies exactly the scores in the first tenth of positions
(indices below `n / 10`) by the start-boost factor and the scores in the last
tenth (indices from `9 * n / 10` on) by the end-boost factor, leaving every
other position unchanged; for arrays of length below 10 it returns the
scores entirely unchanged. -/
theorem position_bias_regions (cfg : CompressorConfig) (scores : List ℚ) :
    (apply_position_bias cfg scores).length = scores.length ∧
    (scores.length < 10 → apply_position_bias cfg scores = scores) ∧
    (10 ≤ scores.length → ∀ i, i < scores.length →
      (apply_position_bias cfg scores).getD i 0 =
        if i < scores.length / 10 then
          scores.getD i 0 * cfg.position_boost_start
        else if 9 * scores.length / 10 ≤ i then
          scores.getD i 0 * cfg.position_boost_end
        else scores.getD i 0) := by
  refine ⟨?_, ?_, ?_⟩
  · unfold apply_position_bias
    by_cases h : scores.length < 10
    · rw [if_pos h]
    · rw [if_neg h]
      exact mapIdxGo_length _ 0 scores
  · intro h
    unfold apply_position_bias
    rw [if_pos h]
  · intro h i hi
    unfold apply_position_bias
    rw [if_neg (by omega)]
    rw [mapIdxGo_getD _ 0 scores i hi]
    simp only [Nat.zero_add]

theorem position_bias_regions_witness :
    10 ≤ ([0, 1, 2, 3, 4, 5, 6, 7, 8, 9] : List ℚ).length ∧
      (apply_position_bias defaultConfig
        [0, 1, 2, 3, 4, 5, 6, 7, 8, 9]).getD 9 0 = (9 : ℚ) * (11 / 10) := by
  constructor
  · decide
  · have h := (position_bias_regions defaultConfig
      [0, 1, 2, 3, 4, 5, 6, 7, 8, 9]).2.2 (by decide) 9 (by decide)
    rw [h, if_neg (by decide), if_pos (by decide)]
    norm_num [defaultConfig]

/-- Claim C4: when no query is supplied, compress produces identical output
for identical input regardless of the value held by the query-weight
configuration field, because the attention and semantic weights are
renormalised to sum to 1 and the query term is omitted entirely. -/
theorem no_query_ignores_query_weight (cfg : CompressorConfig) (w : ℚ)
    (tokCount : String → ℕ) (inp : TokenInputs) (text : String)
    (tr : Option ℚ) :
    compress { cfg with query_weight := w } tokCount inp text none tr =
        compress cfg tokCount inp text none tr ∧
      (cfg.attention_weight + cfg.semantic_weight ≠ 0 →
        cfg.attention_weight / (cfg.attention_weight + cfg.semantic_weight) +
          cfg.semantic_weight / (cfg.attention_weight + cfg.semantic_weight) = 1) := by
  constructor
  · rfl
  · intro h
    rw [div_add_div_same, div_self h]

theorem no_query_ignores_query_weight_witness :
    defaultConfig.attention_weight /
        (defaultConfig.attention_weight + defaultConfig.semantic_weight) +
      defaultConfig.semantic_weight /
        (defaultConfig.attention_weight + defaultConfig.semantic_weight) = 1 :=
  (no_query_ignores_query_weight defaultConfig 0 (fun _ => 0) inpConst "" none).2
    (by norm_num [defaultConfig])

/-- Claim C10: a target_ratio override that is falsy in Python (None or 0.0)
is silently replaced by the configured target ratio, in both compress and
compress_chunks; an override is accepted only when it is nonzero. -/
theorem falsy_target_override_ignored (cfg : CompressorConfig)
    (tokCount : String → ℕ) (inp : TokenInputs) (scorer : String → TokenInputs)
    (text : String) (query : Option String) :
    compress cfg tokCount inp text query (some 0) =
        compress cfg tokCount inp text query none ∧
      compress_chunks cfg tokCount scorer text query (some 0) =
        compress_chunks cfg tokCount scorer text query none ∧
      (∀ x : ℚ, x ≠ 0 → pyOr (some x) cfg.target_ratio = x) := by
  have hp : pyOr (some 0) cfg.target_ratio = pyOr none cfg.target_ratio := by
    simp [pyOr]
  refine ⟨?_, ?_, ?_⟩
  · unfold compress
    rw [hp]
  · unfold compress_chunks compress
    rw [hp]
  · intro x hx
    simp [pyOr, hx]

theorem falsy_target_override_ignored_witness :
    pyOr (some (1 / 2)) defaultConfig.target_ratio = 1 / 2 :=
  (falsy_target_override_ignored defaultConfig (fun _ => 0) inpConst
    (fun _ => inpConst) "" none).2.2 (1 / 2) (by norm_num)

end Solace

namespace Solace

theorem normalize_nil : normalize [] = [] := by
  simp [normalize]

theorem rat_floor_eq_intFloor (q : ℚ) : q.floor = ⌊q⌋ := rfl

theorem compress_compressed_text (cfg : CompressorConfig) (tokCount : String → ℕ)
    (inp : TokenInputs) (text : String) (query : Option String) (tr : Option ℚ) :
    (compress cfg tokCount inp text query tr).compressed_text =
      cleanupWs (convert_tokens_to_string
        ((compress cfg tokCount inp text query tr).kept_indices.map
          (fun i => inp.tokens.getD i ""))) := rfl

theorem compress_compression_ratio (cfg : CompressorConfig) (tokCount : String → ℕ)
    (inp : TokenInputs) (text : String) (query : Option String) (tr : Option ℚ) :
    (compress cfg tokCount inp text query tr).compression_ratio =
      if 0 < tokCount text then
        ((tokCount (compress cfg tokCount inp text query tr).compressed_text : ℚ) /
          (tokCount text : ℚ))
      else 1 := rfl

theorem score_tokens_nil (cfg : CompressorConfig) (inp : TokenInputs)
    (query : Option String) (hattn : inp.attn_scores = []) :
    score_tokens cfg inp query = [] := by
  simp only [score_tokens, hattn, normalize_nil]
  by_cases hq : queryActive cfg query <;>
    by_cases hb : cfg.use_position_bias <;>
      simp [hq, hb, zipWith3Q, apply_position_bias, penalizeTokens, mapIdxGo,
        normalize_nil]

/-- Claim C8: for empty or zero-token input, compression never divides by
zero: the compression ratio is defined as 1.0 when the original token count
is 0, and the compressed text equals the (empty) input. -/
theorem degenerate_input_never_divides (cfg : CompressorConfig)
    (tokCount : String → ℕ) (inp : TokenInputs) (query : Option String)
    (tr : Option ℚ) (htok : inp.tokens = []) (hattn : inp.attn_scores = [])
    (hcount : tokCount "" = 0) :
    (compress cfg tokCount inp "" query tr).compression_ratio = 1 ∧
    (compress cfg tokCount inp "" query tr).compressed_text = "" := by
  have hkept : (compress cfg tokCount inp "" query tr).kept_indices = [] := by
    rw [compress_kept_indices, score_tokens_nil cfg inp query hattn]
    rfl
  constructor
  · rw [compress_compression_ratio, hcount]
    simp
  · rw [compress_compressed_text, hkept]
    rfl

/-- Degenerate neural outputs: the tokenizer produced no tokens at all. -/
def inpEmpty : TokenInputs where
  attn_scores := []
  sem_scores := []
  query_scores := []
  tokens := []
  token_ids := []
  special_ids := []

theorem degenerate_input_never_divides_witness :
    (compress defaultConfig (fun _ => 0) inpEmpty "" none none).compression_ratio = 1 ∧
    (compress defaultConfig (fun _ => 0) inpEmpty "" none none).compressed_text = "" :=
  degenerate_input_never_divides defaultConfig (fun _ => 0) inpEmpty none none
    rfl rfl rfl

end Solace

namespace Solace

/-- Specialisations of the kept-index lemmas to threshold predicates. -/
theorem mem_kept_threshold_iff (thr : ℚ) (l : List ℚ) (i : ℕ) :
    i ∈ ((pyEnumFrom 0 l).filter (fun p => thr ≤ p.2)).map Prod.fst ↔
      i < l.length ∧ thr ≤ l.getD i 0 := by
  have h := mem_keptOf_iff (fun x => decide (thr ≤ x)) l i
  simpa using h

theorem kept_threshold_all (thr : ℚ) (l : List ℚ) (h : ∀ x ∈ l, thr ≤ x) :
    ((pyEnumFrom 0 l).filter (fun p => thr ≤ p.2)).map Prod.fst =
      List.range l.length :=
  keptOf_all (fun x => decide (thr ≤ x)) l (fun x hx => by simpa using h x hx)

theorem kept_threshold_length (thr : ℚ) (l : List ℚ) :
    (((pyEnumFrom 0 l).filter (fun p => thr ≤ p.2)).map Prod.fst).length =
      l.countP (fun s => thr ≤ s) :=
  keptOf_length (fun x => decide (thr ≤ x)) l 0

/-- Spec-side notion (section 4.6): t is a k-th largest element of the score
list, characterised order-theoretically: t occurs in the list, at least k
entries are ≥ t, and fewer than k entries are > t. -/
def IsKthLargest (l : List ℚ) (k : ℕ) (t : ℚ) : Prop :=
  t ∈ l ∧ k ≤ l.countP (fun s => t ≤ s) ∧ l.countP (fun s => t < s) < k

/-- Spec-side content-token count: the spec (section 4.6) excludes
model-internal structural tokens from the content count used for selection. -/
def contentTokenCount (inp : TokenInputs) : ℕ :=
  (inp.token_ids.filter (fun tid => tid ∉ inp.special_ids)).length

/-- The selection rule exactly as the claim states it, with n the
content-token count: k = max(min_tokens, floor(n × target)); if k ≥ n every
token is kept, otherwise exactly the tokens whose fused score reaches the
k-th largest score (floored at the hard threshold) are kept. -/
def claimedKept (cfg : CompressorConfig) (inp : TokenInputs) (scores : List ℚ)
    (target : ℚ) : List ℕ :=
  let n := contentTokenCount inp
  let k := max cfg.min_tokens (((n : ℚ) * target).floor.toNat)
  if n ≤ k then List.range scores.length
  else
    let t := max ((sortDesc scores).getD (k - 1) 0) cfg.hard_threshold
    (List.range scores.length).filter (fun i => t ≤ scores.getD i 0)

/-- Claim C1 (amended): selection uses the full encoder token count
n = len(tokens) (model-internal special tokens included), not the
content-token count; with that n and k = max(min_tokens, floor(n × target)):
if k ≥ n the kept set is every token (threshold 0); otherwise, when k ≥ 1,
there is a k-th largest fused score t and exactly the tokens whose fused
score is ≥ max(t, hard_threshold) are kept (ties may keep more than k). -/
theorem selection_rule_amended (cfg : CompressorConfig) (tokCount : String → ℕ)
    (inp : TokenInputs) (text : String) (query : Option String) (tr : Option ℚ)
    (hlen : (score_tokens cfg inp query).length = inp.tokens.length) :
    (inp.tokens.length ≤
        keepCount cfg.min_tokens inp.tokens.length (pyOr tr cfg.target_ratio) →
      (compress cfg tokCount inp text query tr).kept_indices =
        List.range inp.tokens.length) ∧
    (keepCount cfg.min_tokens inp.tokens.length (pyOr tr cfg.target_ratio) <
        inp.tokens.length →
      0 < keepCount cfg.min_tokens inp.tokens.length (pyOr tr cfg.target_ratio) →
      ∃ t, IsKthLargest (score_tokens cfg inp query)
          (keepCount cfg.min_tokens inp.tokens.length (pyOr tr cfg.target_ratio)) t ∧
        ∀ i, i ∈ (compress cfg tokCount inp text query tr).kept_indices ↔
          i < inp.tokens.length ∧
            max t cfg.hard_threshold ≤ (score_tokens cfg inp query).getD i 0) := by
  constructor
  · intro hnk
    rw [compress_kept_indices]
    have hthr : keepThreshold cfg.hard_threshold (score_tokens cfg inp query)
        inp.tokens.length
        (keepCount cfg.min_tokens inp.tokens.length (pyOr tr cfg.target_ratio)) = 0 := by
      unfold keepThreshold
      rw [if_pos hnk]
    rw [hthr, kept_threshold_all 0 (score_tokens cfg inp query)
      (fun x hx => (score_tokens_bounds cfg inp query x hx).1), hlen]
  · intro hkn hk
    have hkl : keepCount cfg.min_tokens inp.tokens.length (pyOr tr cfg.target_ratio) ≤
        (score_tokens cfg inp query).length := by
      rw [hlen]; omega
    refine ⟨(sortDesc (score_tokens cfg inp query)).getD
        (keepCount cfg.min_tokens inp.tokens.length (pyOr tr cfg.target_ratio) - 1) 0,
      ⟨kth_mem _ _ hk hkl, kth_count_ge _ _ hk hkl, kth_count_lt _ _ hk hkl⟩, ?_⟩
    intro i
    rw [compress_kept_indices]
    have hthr : keepThreshold cfg.hard_threshold (score_tokens cfg inp query)
        inp.tokens.length
        (keepCount cfg.min_tokens inp.tokens.length (pyOr tr cfg.target_ratio)) =
        max ((sortDesc (score_tokens cfg inp query)).getD
          (keepCount cfg.min_tokens inp.tokens.length (pyOr tr cfg.target_ratio) - 1) 0)
          cfg.hard_threshold := by
      unfold keepThreshold
      rw [if_neg (by omega)]
      congr 2
      unfold pyGet
      rw [if_pos (by omega :
        (0 : ℤ) ≤ (keepCount cfg.min_tokens inp.tokens.length (pyOr tr cfg.target_ratio) : ℤ) - 1)]
      congr 1
      omega
    rw [hthr, mem_kept_threshold_iff, hlen]

end Solace

namespace Solace

theorem selection_rule_amended_witness :
    (compress defaultConfig (fun _ => 0) inpConst "" none none).kept_indices =
      List.range 2 := by
  have hlen : (score_tokens defaultConfig inpConst none).length =
      inpConst.tokens.length := by
    rw [score_tokens_inpConst_eval]
    rfl
  exact (selection_rule_amended defaultConfig (fun _ => 0) inpConst "" none none
      hlen).1
    (le_trans (by decide : inpConst.tokens.length ≤ 50)
      (Nat.le_max_left 50 _))

/-- Configuration used to separate the content-token count from the full
token count in selection. -/
def cfgC1 : CompressorConfig :=
  { defaultConfig with min_tokens := 2, target_ratio := 1 / 3 }

/-- Tokenizer output with one structural special token, constant raw
signals. -/
def inpC1 : TokenInputs where
  attn_scores := [5, 5, 5]
  sem_scores := [7, 7, 7]
  query_scores := []
  tokens := ["[CLS]", "hello", "world"]
  token_ids := [101, 7592, 2088]
  special_ids := [101]

theorem score_tokens_inpC1_eval :
    score_tokens cfgC1 inpC1 none =
      [0, 100000000 / 100000001, 100000000 / 100000001] := by
  have h1 : hasAlnum "hello" = true := by decide
  have h2 : hasAlnum "world" = true := by decide
  have h3 : startsWithHashHash "hello" = false := by decide
  have h4 : startsWithHashHash "world" = false := by decide
  norm_num [score_tokens, normalize, listMax, listMin, queryActive,
    apply_position_bias, penalizeTokens, mapIdxGo, inpC1, cfgC1,
    defaultConfig, max_def, min_def, eps, h1, h2, h3, h4]

/-- Claim C1 counterexample: with one structural token among three, the
compressor selects with n = len(tokens) = 3, not the content-token count 2;
at min_tokens = 2 and target 1/3 the claimed rule (n = 2, k = 2 ≥ n) keeps
every token, while the code (n = 3, k = 2 < 3) thresholds at the 2nd
largest score and drops the structural token. -/
theorem selection_rule_counterexample :
    (compress cfgC1 (fun _ => 0) inpC1 "x" none none).kept_indices ≠
      claimedKept cfgC1 inpC1 (score_tokens cfgC1 inpC1 none)
        (pyOr none cfgC1.target_ratio) := by
  have hkc : keepCount cfgC1.min_tokens inpC1.tokens.length
      (pyOr none cfgC1.target_ratio) = 2 := by
    norm_num [keepCount, cfgC1, defaultConfig, inpC1, pyOr,
      rat_floor_eq_intFloor]
  have hthr : keepThreshold cfgC1.hard_threshold
      ([0, 100000000 / 100000001, 100000000 / 100000001] : List ℚ)
      inpC1.tokens.length 2 = 100000000 / 100000001 := by
    norm_num [keepThreshold, inpC1, cfgC1, defaultConfig, sortDesc,
      List.insertionSort, List.orderedInsert, pyGet, max_def]
  have hkept : (compress cfgC1 (fun _ => 0) inpC1 "x" none none).kept_indices =
      [1, 2] := by
    rw [compress_kept_indices, score_tokens_inpC1_eval, hkc, hthr]
    norm_num [pyEnumFrom, List.filter_cons]
  have hclaim : claimedKept cfgC1 inpC1 (score_tokens cfgC1 inpC1 none)
      (pyOr none cfgC1.target_ratio) = [0, 1, 2] := by
    rw [score_tokens_inpC1_eval]
    norm_num [claimedKept, contentTokenCount, cfgC1, defaultConfig, inpC1,
      pyOr, rat_floor_eq_intFloor, List.range_succ]
  rw [hkept, hclaim]
  decide

end Solace

namespace Solace

/-- Claim C3 (amended): with token counts measured on the scorer
tokenisation (kept-token count against encoder token count; the reference
reports metric counts through an external reference tokenizer, left abstract
here), for every input whose token count N is at least min_tokens and whose
hard threshold is disabled (≤ 0), the kept count C satisfies
min_tokens ≤ C ≤ N.  C = N can also occur when target_ratio × N ≥ min_tokens:
score ties at the selection threshold can extend the kept set to every
token, so the claimed "only when" direction does not hold. -/
theorem kept_count_bounds_amended (cfg : CompressorConfig)
    (tokCount : String → ℕ) (inp : TokenInputs) (text : String)
    (query : Option String) (tr : Option ℚ)
    (hlen : (score_tokens cfg inp query).length = inp.tokens.length)
    (hhard : cfg.hard_threshold ≤ 0)
    (hmin : cfg.min_tokens ≤ inp.tokens.length) :
    cfg.min_tokens ≤ (compress cfg tokCount inp text query tr).kept_indices.length ∧
    (compress cfg tokCount inp text query tr).kept_indices.length ≤
      inp.tokens.length := by
  rw [compress_kept_indices, kept_threshold_length]
  constructor
  · by_cases hnk : inp.tokens.length ≤
        keepCount cfg.min_tokens inp.tokens.length (pyOr tr cfg.target_ratio)
    · have hthr : keepThreshold cfg.hard_threshold (score_tokens cfg inp query)
          inp.tokens.length
          (keepCount cfg.min_tokens inp.tokens.length (pyOr tr cfg.target_ratio)) = 0 := by
        unfold keepThreshold
        rw [if_pos hnk]
      rw [hthr]
      have hall : (score_tokens cfg inp query).countP (fun s => (0 : ℚ) ≤ s) =
          (score_tokens cfg inp query).length :=
        List.countP_eq_length.mpr
          (fun x hx => by simpa using (score_tokens_bounds cfg inp query x hx).1)
      rw [hall, hlen]
      exact hmin
    · have hkn : keepCount cfg.min_tokens inp.tokens.length (pyOr tr cfg.target_ratio) <
          inp.tokens.length := by omega
      have hmink : cfg.min_tokens ≤
          keepCount cfg.min_tokens inp.tokens.length (pyOr tr cfg.target_ratio) :=
        Nat.le_max_left _ _
      by_cases hk0 :
          keepCount cfg.min_tokens inp.tokens.length (pyOr tr cfg.target_ratio) = 0
      · omega
      · have hk : 0 < keepCount cfg.min_tokens inp.tokens.length (pyOr tr cfg.target_ratio) := by
          omega
        have hkl : keepCount cfg.min_tokens inp.tokens.length (pyOr tr cfg.target_ratio) ≤
            (score_tokens cfg inp query).length := by
          rw [hlen]; omega
        have ht0 : 0 ≤ (sortDesc (score_tokens cfg inp query)).getD
            (keepCount cfg.min_tokens inp.tokens.length (pyOr tr cfg.target_ratio) - 1) 0 :=
          (score_tokens_bounds cfg inp query _ (kth_mem _ _ hk hkl)).1
        have hthr : keepThreshold cfg.hard_threshold (score_tokens cfg inp query)
            inp.tokens.length
            (keepCount cfg.min_tokens inp.tokens.length (pyOr tr cfg.target_ratio)) =
            (sortDesc (score_tokens cfg inp query)).getD
              (keepCount cfg.min_tokens inp.tokens.length (pyOr tr cfg.target_ratio) - 1) 0 := by
          unfold keepThreshold
          rw [if_neg (by omega)]
          have hpy : pyGet (sortDesc (score_tokens cfg inp query))
              ((keepCount cfg.min_tokens inp.tokens.length (pyOr tr cfg.target_ratio) : ℤ) - 1) =
              (sortDesc (score_tokens cfg inp query)).getD
                (keepCount cfg.min_tokens inp.tokens.length (pyOr tr cfg.target_ratio) - 1) 0 := by
            unfold pyGet
            rw [if_pos (by omega :
              (0 : ℤ) ≤ (keepCount cfg.min_tokens inp.tokens.length (pyOr tr cfg.target_ratio) : ℤ) - 1)]
            congr 1
            omega
          rw [hpy]
          exact max_eq_left (le_trans hhard ht0)
        rw [hthr]
        exact le_trans hmink (kth_count_ge _ _ hk hkl)
  · exact le_trans (List.countP_le_length _) (le_of_eq hlen)

/-- Configuration with a small keep floor used by the C3 witness. -/
def cfgMin1 : CompressorConfig := { defaultConfig with min_tokens := 1 }

theorem score_tokens_cfgMin1_eval :
    score_tokens cfgMin1 inpConst none = [1, 1] := by
  have ha : hasAlnum "a" = true := by decide
  have hb : hasAlnum "b" = true := by decide
  have hsa : startsWithHashHash "a" = false := by decide
  have hsb : startsWithHashHash "b" = false := by decide
  norm_num [score_tokens, normalize, listMax, listMin, queryActive,
    apply_position_bias, penalizeTokens, mapIdxGo, inpConst,
    cfgMin1, defaultConfig, max_def, min_def, ha, hb, hsa, hsb]

theorem kept_count_bounds_amended_witness :
    1 ≤ (compress cfgMin1 (fun _ => 0) inpConst "" none none).kept_indices.length ∧
    (compress cfgMin1 (fun _ => 0) inpConst "" none none).kept_indices.length ≤ 2 :=
  kept_count_bounds_amended cfgMin1 (fun _ => 0) inpConst "" none none
    (by rw [score_tokens_cfgMin1_eval]; rfl)
    (by norm_num [cfgMin1, defaultConfig])
    (by decide)

/-- Configuration for the C3 counterexample: keep floor 1, target one half. -/
def cfgC3 : CompressorConfig :=
  { defaultConfig with min_tokens := 1, target_ratio := 1 / 2 }

/-- Four content tokens with fully tied raw signals. -/
def inpC3 : TokenInputs where
  attn_scores := [3, 3, 3, 3]
  sem_scores := [3, 3, 3, 3]
  query_scores := []
  tokens := ["A", "B", "C", "D"]
  token_ids := [1, 2, 3, 4]
  special_ids := []

theorem score_tokens_inpC3_eval :
    score_tokens cfgC3 inpC3 none = [1, 1, 1, 1] := by
  have ha : hasAlnum "A" = true := by decide
  have hb : hasAlnum "B" = true := by decide
  have hc : hasAlnum "C" = true := by decide
  have hd : hasAlnum "D" = true := by decide
  have hsa : startsWithHashHash "A" = false := by decide
  have hsb : startsWithHashHash "B" = false := by decide
  have hsc : startsWithHashHash "C" = false := by decide
  have hsd : startsWithHashHash "D" = false := by decide
  norm_num [score_tokens, normalize, listMax, listMin, queryActive,
    apply_position_bias, penalizeTokens, mapIdxGo, inpC3, cfgC3,
    defaultConfig, max_def, min_def, ha, hb, hc, hd, hsa, hsb, hsc, hsd]

/-- Claim C3 counterexample: four tokens with fully tied scores, keep floor
1, target one half.  N = 4 ≥ min_tokens, target_ratio × N = 2 ≥ min_tokens,
yet every token is kept (C = N), because the threshold equals the tied score
shared by all tokens.  So C = N does not occur only when
target_ratio × N < min_tokens. -/
theorem kept_count_bounds_counterexample :
    cfgC3.min_tokens ≤ inpC3.tokens.length ∧
    (compress cfgC3 (fun _ => 0) inpC3 "t" none none).kept_indices.length =
      inpC3.tokens.length ∧
    ¬ (cfgC3.target_ratio * (inpC3.tokens.length : ℚ) < (cfgC3.min_tokens : ℚ)) := by
  have hkc : keepCount cfgC3.min_tokens inpC3.tokens.length
      (pyOr none cfgC3.target_ratio) = 2 := by
    norm_num [keepCount, cfgC3, defaultConfig, inpC3, pyOr,
      rat_floor_eq_intFloor]
    rfl
  have hthr : keepThreshold cfgC3.hard_threshold ([1, 1, 1, 1] : List ℚ)
      inpC3.tokens.length 2 = 1 := by
    norm_num [keepThreshold, inpC3, cfgC3, defaultConfig, sortDesc,
      List.insertionSort, List.orderedInsert, pyGet, max_def]
  refine ⟨by decide, ?_, ?_⟩
  · rw [compress_kept_indices, score_tokens_inpC3_eval, hkc, hthr]
    norm_num [pyEnumFrom, List.filter_cons, inpC3]
  · norm_num [cfgC3, defaultConfig, inpC3]

end Solace

namespace Solace

theorem chunkGo_nil (cs : ℕ) (chunks : List (List String))
    (current : List String) (currentLen : ℕ) :
    chunkGo cs chunks current currentLen [] =
      if current = [] then chunks else chunks ++ [current] := rfl

theorem chunkGo_cons (cs : ℕ) (chunks : List (List String))
    (current : List String) (currentLen : ℕ) (sent : String)
    (rest : List String) :
    chunkGo cs chunks current currentLen (sent :: rest) =
      if ((currentLen + pyWordCount sent : ℕ) : ℚ) > (cs : ℚ) * (8 / 10) then
        chunkGo cs (if current = [] then chunks else chunks ++ [current]) [sent]
          (pyWordCount sent) rest
      else chunkGo cs chunks (current ++ [sent]) (currentLen + pyWordCount sent)
        rest := rfl

theorem chunkGo_sound (cs : ℕ) (S : List String) :
    ∀ (sents : List String) (chunks : List (List String))
      (current : List String) (currentLen : ℕ),
      (∀ g ∈ chunks, ((g.map pyWordCount).sum : ℚ) ≤ (cs : ℚ) * (8 / 10) ∨
        ∃ s ∈ S, g = [s]) →
      (current = [] ∨ ((currentLen : ℚ) ≤ (cs : ℚ) * (8 / 10)) ∨
        ∃ s ∈ S, current = [s]) →
      currentLen = (current.map pyWordCount).sum →
      (∀ s ∈ sents, s ∈ S) →
      ∀ g ∈ chunkGo cs chunks current currentLen sents,
        ((g.map pyWordCount).sum : ℚ) ≤ (cs : ℚ) * (8 / 10) ∨ ∃ s ∈ S, g = [s] := by
  intro sents
  induction sents with
  | nil =>
    intro chunks current currentLen hchunks hcur hlen _ g hg
    rw [chunkGo_nil] at hg
    by_cases hc : current = []
    · rw [if_pos hc] at hg
      exact hchunks g hg
    · rw [if_neg hc] at hg
      rcases List.mem_append.mp hg with h | h
      · exact hchunks g h
      · have hgc : g = current := by simpa using h
        subst hgc
        rcases hcur with hnil | hle | hsing
        · exact absurd hnil hc
        · left; rw [← hlen]; exact hle
        · right; exact hsing
  | cons sent rest ih =>
    intro chunks current currentLen hchunks hcur hlen hsents g hg
    rw [chunkGo_cons] at hg
    by_cases hcond : ((currentLen + pyWordCount sent : ℕ) : ℚ) > (cs : ℚ) * (8 / 10)
    · rw [if_pos hcond] at hg
      refine ih _ _ _ ?_ ?_ ?_ (fun s hs => hsents s (List.mem_cons_of_mem _ hs)) g hg
      · intro g' hg'
        by_cases hc : current = []
        · rw [if_pos hc] at hg'
          exact hchunks g' hg'
        · rw [if_neg hc] at hg'
          rcases List.mem_append.mp hg' with h | h
          · exact hchunks g' h
          · have hgc : g' = current := by simpa using h
            subst hgc
            rcases hcur with hnil | hle | hsing
            · exact absurd hnil hc
            · left; rw [← hlen]; exact hle
            · right; exact hsing
      · exact Or.inr (Or.inr ⟨sent, hsents sent (List.mem_cons_self _ _), rfl⟩)
      · simp
    · rw [if_neg hcond] at hg
      refine ih _ _ _ hchunks ?_ ?_ (fun s hs => hsents s (List.mem_cons_of_mem _ hs)) g hg
      · exact Or.inr (Or.inl (not_lt.mp hcond))
      · rw [List.map_append, List.sum_append]
        simp [hlen]

/-- Claim C7 (amended): compress_chunks greedily packs consecutive sentences
into chunks; every chunk's accumulated word count is at most
chunk_size × 0.8 unless the chunk consists of a single sentence (a sentence
longer than the cap becomes its own over-sized chunk, and a chunk may reach
the cap exactly).  The final compressed text equals the per-chunk compressed
texts joined with single spaces in original order, and the aggregate
original and compressed token counts equal the sums over chunks. -/
theorem chunk_packing_amended (cfg : CompressorConfig) (tokCount : String → ℕ)
    (scorer : String → TokenInputs) (text : String) (query : Option String)
    (tr : Option ℚ) :
    (∀ g ∈ chunkGroups cfg text,
      ((g.map pyWordCount).sum : ℚ) ≤ (cfg.chunk_size : ℚ) * (8 / 10) ∨
        ∃ s ∈ split_sentences text, g = [s]) ∧
    (compress_chunks cfg tokCount scorer text query tr).compressed_text =
      String.intercalate " "
        (((chunkGroups cfg text).map (String.intercalate " ")).map
          (fun ch => (compress cfg tokCount (scorer ch) ch query tr).compressed_text)) ∧
    (compress_chunks cfg tokCount scorer text query tr).original_tokens =
      (((chunkGroups cfg text).map (String.intercalate " ")).map
        (fun ch => (compress cfg tokCount (scorer ch) ch query tr).original_tokens)).sum ∧
    (compress_chunks cfg tokCount scorer text query tr).compressed_tokens =
      (((chunkGroups cfg text).map (String.intercalate " ")).map
        (fun ch => (compress cfg tokCount (scorer ch) ch query tr).compressed_tokens)).sum := by
  refine ⟨?_, ?_, ?_, ?_⟩
  · exact chunkGo_sound cfg.chunk_size (split_sentences text) (split_sentences text)
      [] [] 0 (fun g hg => absurd hg (List.not_mem_nil g)) (Or.inl rfl) rfl
      (fun s hs => hs)
  · simp [compress_chunks, List.map_map, Function.comp_def]
  · simp [compress_chunks, List.map_map, Function.comp_def]
  · simp [compress_chunks, List.map_map, Function.comp_def]

/-- Configuration with a tiny chunk budget, for concrete chunking runs. -/
def cfg7 : CompressorConfig := { defaultConfig with chunk_size := 5 }

theorem split_sentences_one_short : split_sentences "a b." = ["a b."] := by
  decide

theorem split_sentences_one_long : split_sentences "a b c d e" = ["a b c d e"] := by
  decide

theorem split_sentences_two : split_sentences "a b. c d." = ["a b.", "c d."] := by
  decide

theorem chunkGroups_one_short : chunkGroups cfg7 "a b." = [["a b."]] := by
  unfold chunkGroups
  rw [split_sentences_one_short, chunkGo_cons,
    show pyWordCount "a b." = 2 from rfl,
    if_neg (by norm_num [cfg7, defaultConfig]), chunkGo_nil]
  rfl

theorem chunkGroups_one_long : chunkGroups cfg7 "a b c d e" = [["a b c d e"]] := by
  unfold chunkGroups
  rw [split_sentences_one_long, chunkGo_cons,
    show pyWordCount "a b c d e" = 5 from rfl,
    if_pos (by norm_num [cfg7, defaultConfig]), chunkGo_nil]
  rfl

theorem chunkGroups_two : chunkGroups cfg7 "a b. c d." = [["a b.", "c d."]] := by
  unfold chunkGroups
  rw [split_sentences_two, chunkGo_cons,
    show pyWordCount "a b." = 2 from rfl,
    if_neg (by norm_num [cfg7, defaultConfig]), chunkGo_cons,
    show pyWordCount "c d." = 2 from rfl,
    if_neg (by norm_num [cfg7, defaultConfig]), chunkGo_nil]
  rfl

theorem chunk_packing_amended_witness :
    ((([("a b.")] : List String).map pyWordCount).sum : ℚ) ≤
        (cfg7.chunk_size : ℚ) * (8 / 10) ∨
      ∃ s ∈ split_sentences "a b.", ([("a b.")] : List String) = [s] :=
  (chunk_packing_amended cfg7 (fun _ => 0) (fun _ => inpEmpty) "a b."
      none none).1
    ["a b."] (by rw [chunkGroups_one_short]; exact List.mem_singleton.mpr rfl)

/-- Claim C7 counterexample: a single five-word sentence with chunk_size 5
forms one chunk of 5 words, exceeding the cap chunk_size × 0.8 = 4; and two
two-word sentences pack into one chunk of exactly 4 words, reaching the cap
rather than staying strictly under it. -/
theorem chunk_packing_counterexample :
    ¬ (∀ g ∈ chunkGroups cfg7 "a b c d e",
        ((g.map pyWordCount).sum : ℚ) < (cfg7.chunk_size : ℚ) * (8 / 10)) ∧
    (∃ g ∈ chunkGroups cfg7 "a b. c d.",
        ((g.map pyWordCount).sum : ℚ) = (cfg7.chunk_size : ℚ) * (8 / 10)) := by
  constructor
  · intro h
    have h5 := h ["a b c d e"]
      (by rw [chunkGroups_one_long]; exact List.mem_singleton.mpr rfl)
    rw [show ((["a b c d e"] : List String).map pyWordCount).sum = 5 from rfl] at h5
    norm_num [cfg7, defaultConfig] at h5
  · refine ⟨["a b.", "c d."],
      by rw [chunkGroups_two]; exact List.mem_singleton.mpr rfl, ?_⟩
    rw [show ((["a b.", "c d."] : List String).map pyWordCount).sum = 4 from rfl]
    norm_num [cfg7, defaultConfig]

end Solace

namespace Solace

/-! ## Embedding of verify_answer (longbench.py lines 125-157)

Each regex of the source is modelled as a character-list scanner with
Python `re.search` semantics (leftmost match wins); greedy character-class
repetition followed by a character the class excludes needs no backtracking,
so maximal munch is exact for these patterns. -/

/-- `re.sub(r'\*+', '', predicted)` (longbench.py line 132): markdown stars
removed. -/
def removeStars (s : String) : String :=
  String.mk (s.data.filter (fun c => c ≠ '*'))

/-- Python `.upper().strip()` (ASCII model). -/
def pyUpperStrip (s : String) : String :=
  String.mk (pyStrip (s.data.map Char.toUpper))

/-- The capture class `[A-D]`. -/
def isABCD (c : Char) : Bool :=
  c = 'A' || c = 'B' || c = 'C' || c = 'D'

/-- Regex word character `\w` (ASCII model), for `\b` boundaries. -/
def isWordChar (c : Char) : Bool :=
  c.isAlpha || c.isDigit || c = '_'

/-- Whether the next character continues a word (end of string does not). -/
def nextIsWord : List Char → Bool
  | [] => false
  | d :: _ => isWordChar d

/-- `\(([A-D])\)` at the current position. -/
def matchParenAt : List Char → Option Char
  | '(' :: c :: ')' :: _ => if isABCD c then some c else none
  | _ => none

/-- Literal-prefix stripping. -/
def stripPrefixCL : List Char → List Char → Option (List Char)
  | [], s => some s
  | _ :: _, [] => none
  | k :: ks, c :: cs => if k = c then stripPrefixCL ks cs else none

/-- `KEYWORD[:\s]*\(?([A-D])\)?` at the current position (the capture does
not depend on the optional closing parenthesis). -/
def matchKeywordAt (kw : List Char) (s : List Char) : Option Char :=
  match stripPrefixCL kw s with
  | none => none
  | some rest =>
    let rest2 := rest.dropWhile (fun c => c = ':' || c.isWhitespace)
    let rest3 :=
      match rest2 with
      | '(' :: r => r
      | r => r
    match rest3 with
    | c :: _ => if isABCD c then some c else none
    | [] => none

/-- `CORRECT[^A-D]*([A-D])` at the current position: the first `[A-D]`
character after the literal. -/
def matchCorrectAt (s : List Char) : Option Char :=
  match stripPrefixCL "CORRECT".data s with
  | none => none
  | some rest =>
    match rest.dropWhile (fun c => !(isABCD c)) with
    | c :: _ => some c
    | [] => none

/-- `re.search` driver: try the positional matcher at every position, left
to right. -/
def searchFrom (m : List Char → Option Char) : List Char → Option Char
  | [] => m []
  | c :: rest =>
    match m (c :: rest) with
    | some letter => some letter
    | none => searchFrom m rest

/-- `\b([A-D])\.` scanned left to right, tracking whether the previous
character was a word character. -/
def searchLetterDot : Bool → List Char → Option Char
  | _, [] => none
  | prevIsWord, c :: rest =>
    match rest with
    | '.' :: _ =>
      if isABCD c && !prevIsWord then some c
      else searchLetterDot (isWordChar c) rest
    | _ => searchLetterDot (isWordChar c) rest

/-- `^\s*([A-D])\b`: anchored at the start of the string. -/
def matchStartAt (s : List Char) : Option Char :=
  match s.dropWhile Char.isWhitespace with
  | c :: rest => if isABCD c && !(nextIsWord rest) then some c else none
  | [] => none

/-- `\b([A-D])\b` scanned left to right. -/
def searchStandalone : Bool → List Char → Option Char
  | _, [] => none
  | prevIsWord, c :: rest =>
    if isABCD c && !prevIsWord && !(nextIsWord rest) then some c
    else searchStandalone (isWordChar c) rest

/-- The pattern list of longbench.py lines 142-150, in source order. -/
def patterns : List (List Char → Option Char) :=
  [searchFrom matchParenAt,
   searchLetterDot false,
   searchFrom (matchKeywordAt "OPTION".data),
   searchFrom (matchKeywordAt "ANSWER".data),
   searchFrom matchCorrectAt,
   matchStartAt,
   searchStandalone false]

/-- The `for pattern in patterns` loop of longbench.py lines 152-155: the
first pattern that matches decides. -/
def firstMatch : List (List Char → Option Char) → List Char → Option Char
  | [], _ => none
  | p :: ps, s =>
    match p s with
    | some c => some c
    | none => firstMatch ps s

/-- `verify_answer` (longbench.py lines 125-157). -/
def verify_answer (predicted gold : String) : Bool :=
  let predicted_upper := pyUpperStrip (removeStars predicted)
  let gold_upper := pyUpperStrip gold
  if predicted_upper ∈ (["A", "B", "C", "D"] : List String) then
    predicted_upper == gold_upper
  else
    match firstMatch patterns predicted_upper.data with
    | some c => String.mk [c] == gold_upper
    | none => false

theorem firstMatch_eq (ps : List (List Char → Option Char)) (s : List Char) :
    ∀ (i : ℕ) (p : List Char → Option Char) (c : Char),
      ps.get? i = some p → p s = some c →
      (∀ j, j < i → ∀ q, ps.get? j = some q → q s = none) →
      firstMatch ps s = some c := by
  induction ps with
  | nil =>
    intro i p c hp
    simp at hp
  | cons phead ptail ih =>
    intro i p c hp hc hprev
    cases i with
    | zero =>
      have hpe : phead = p := by simpa using hp
      subst hpe
      show (match phead s with
            | some letter => some letter
            | none => firstMatch ptail s) = some c
      rw [hc]
    | succ i =>
      have hhead : phead s = none := hprev 0 (Nat.succ_pos i) phead rfl
      show (match phead s with
            | some letter => some letter
            | none => firstMatch ptail s) = some c
      rw [hhead]
      exact ih i p c (by simpa using hp) hc
        (fun j hj q hq => hprev (j + 1) (by omega) q (by simpa using hq))

/-- Claim C9: verify_answer first tries the exact single-letter comparison
on the cleaned, uppercased, stripped response; otherwise it applies the
seven patterns in their fixed source order (parenthesized letter,
word-boundary letter-then-period, option-keyword, answer-keyword,
correct-keyword, letter at string start, standalone letter), and the first
pattern that matches decides the extracted letter compared against the
cleaned gold answer. -/
theorem verify_answer_first_pattern_wins (predicted gold : String) :
    (pyUpperStrip (removeStars predicted) ∈ (["A", "B", "C", "D"] : List String) →
      verify_answer predicted gold =
        (pyUpperStrip (removeStars predicted) == pyUpperStrip gold)) ∧
    (∀ (i : ℕ) (p : List Char → Option Char) (c : Char),
      pyUpperStrip (removeStars predicted) ∉ (["A", "B", "C", "D"] : List String) →
      patterns.get? i = some p →
      p (pyUpperStrip (removeStars predicted)).data = some c →
      (∀ j, j < i → ∀ q, patterns.get? j = some q →
        q (pyUpperStrip (removeStars predicted)).data = none) →
      verify_answer predicted gold = (String.mk [c] == pyUpperStrip gold)) := by
  constructor
  · intro h
    simp only [verify_answer]
    rw [if_pos h]
  · intro i p c hnot hp hc hprev
    have hfm : firstMatch patterns (pyUpperStrip (removeStars predicted)).data =
        some c := firstMatch_eq patterns _ i p c hp hc hprev
    simp only [verify_answer]
    rw [if_neg hnot, hfm]

theorem verify_answer_first_pattern_wins_witness :
    verify_answer "I think (B) is right" "B" = true := by
  have h := (verify_answer_first_pattern_wins "I think (B) is right" "B").2 0
    (searchFrom matchParenAt) 'B'
    (by decide) rfl (by decide)
    (fun j hj q hq => absurd hj (Nat.not_lt_zero j))
  rw [h]
  decide

end Solace
